import Mathlib

/- Verification of the NormalRecon coarse-to-fine reconstruction network
   (models/neucon_network.py).  The network's data flow is shallowly embedded
   over an ordered field K: tensors become lists, boolean-mask indexing becomes
   list filtering, and the external modules the source treats as opaque
   (2D backbone features, back_project, SPVCNN, GRUFusion, the learned linear
   heads, numpy's random choice) become oracle parameters.  Fallible tensor
   operations (fancy indexing with out-of-range or non-integral indices, which
   raise in the original) return Option. -/

set_option maxHeartbeats 2000000

variable {K : Type} [LinearOrderedField K] {α : Type} {β : Type}

/-- Number of true flags in a boolean vector (the value of `occupancy.sum()`
on a boolean tensor). -/
def countTrue (xs : List Bool) : ℕ := xs.countP id

/-- Boolean-mask row selection, the semantics of `tensor[mask]` indexing:
keep the rows whose mask entry is true, in order. -/
def maskFilter (m : List Bool) (xs : List α) : List α :=
  ((xs.zip m).filter (fun p => p.2)).map (fun p => p.1)

/-- Positions of the true flags in increasing order, the semantics of
`torch.nonzero` on a flat boolean tensor. -/
def trueIndices : List Bool → List ℕ
  | [] => []
  | b :: rest =>
    if b then 0 :: (trueIndices rest).map (· + 1) else (trueIndices rest).map (· + 1)

/-- Shift a set of positions one slot down, dropping position 0; helper for
`clearIdx`'s structural recursion. -/
def shiftDown (s : List ℕ) : List ℕ :=
  s.filterMap (fun n => match n with | 0 => none | m + 1 => some m)

/-- Clear (set to false) the flags at the listed positions, the semantics of
`occupancy[idx] = False` for an index list: position j ends up false exactly
when j is listed, and keeps its old flag otherwise (see `clearIdx_getD`). -/
def clearIdx : List Bool → List ℕ → List Bool
  | [], _ => []
  | b :: rest, s => (b && !(decide (0 ∈ s))) :: clearIdx rest (shiftDown s)

/-- Lines 221-224 of neucon_network.py: `ind = torch.nonzero(occupancy)` and
`occupancy[ind[choice]] = False` for a drawn index list `choice`. -/
def sampleOccupancy (occ : List Bool) (choice : List ℕ) : List Bool :=
  clearIdx occ (choice.map (fun c => (trueIndices occ).getD c 0))

/-- Lines 219-224 of neucon_network.py: during training, when the number of
occupancy-passing voxels exceeds `TRAIN_NUM_SAMPLE[i] * bs`, clear the flags of
the voxels drawn by `choice` (the embedding of `np.random.choice(num, num -
TRAIN_NUM_SAMPLE[i] * bs, replace=False)`); otherwise leave occupancy alone. -/
def sparsify (training : Bool) (cap bs : ℕ) (occ : List Bool) (choice : List ℕ) :
    List Bool :=
  if training && decide (cap * bs < countTrue occ) then sampleOccupancy occ choice
  else occ

/-- The seven single-axis / multi-axis offset position lists of
`upsample` (`pos_list` in the source); positions index the (batch, x, y, z)
coordinate row, so 1, 2, 3 are the x, y, z components. -/
def posList : List (List ℕ) := [[1], [2], [3], [1, 2], [1, 3], [2, 3], [1, 2, 3]]

/-- Add `d` to the coordinate components at the listed positions
(`up_coords[:, i + 1, pos_list[i]] += interval`). -/
def addInterval (c : List ℤ) (ps : List ℕ) (d : ℤ) : List ℤ :=
  c.mapIdx (fun j x => if j ∈ ps then x + d else x)

/-- The eight children of one parent coordinate: the parent itself (child 0)
followed by the seven offset children. -/
def childCoords (c : List ℤ) (d : ℤ) : List (List ℤ) :=
  c :: posList.map (fun ps => addInterval c ps d)

/-- Lines 86-107 of neucon_network.py (`upsample`): each parent voxel is
expanded into 8 children; features are replicated verbatim, child 0 copies the
parent coordinate and children 1..7 add `interval` along `pos_list`. -/
def upsample (preFeat : List α) (preCoords : List (List ℤ)) (d : ℤ) :
    List α × List (List ℤ) :=
  (preFeat.flatMap (fun f => List.replicate 8 f),
   preCoords.flatMap (fun c => childCoords c d))

/-- Lines 67-84 of neucon_network.py (`get_target`): integer-divide the
spatial components (not the batch index) by 2^scale and index the dense
per-scale ground-truth volumes at (batch, x, y, z).  Python's `//` is floor
division, hence `Int.fdiv`. -/
def getTarget (tsdfVol : ℤ → ℤ → ℤ → ℤ → K) (occVol : ℤ → ℤ → ℤ → ℤ → Bool)
    (coords : List (List ℤ)) (scale : ℕ) : List K × List Bool :=
  let coordsDown := coords.map (fun c =>
    [c.getD 0 0, (c.getD 1 0).fdiv (2 ^ scale), (c.getD 2 0).fdiv (2 ^ scale),
     (c.getD 3 0).fdiv (2 ^ scale)])
  (coordsDown.map (fun c => tsdfVol (c.getD 0 0) (c.getD 1 0) (c.getD 2 0) (c.getD 3 0)),
   coordsDown.map (fun c => occVol (c.getD 0 0) (c.getD 1 0) (c.getD 2 0) (c.getD 3 0)))

/-- The sign function used by `torch.sign`: -1, 0 or 1. -/
def signK (x : K) : K := if x < 0 then -1 else if 0 < x then 1 else 0

/-- Modelled from the spec: `apply_log_transform` lives in utils.py, which is
not under src/; section 4.9 of the spec gives its formula as the sign-preserving
compression sign(x) * log(abs x + 1).  The logarithm is passed in as `lg`
(instantiated with `Real.log` for the actual program). -/
def applyLogTransform (lg : K → K) (x : K) : K := signK x * lg (|x| + 1)

/-- The logistic sigmoid written with an explicit exponential `ex`. -/
def sigmoidK (ex : K → K) (x : K) : K := 1 / (1 + ex (-x))

/-- One element of `F.binary_cross_entropy_with_logits(occ, occ_target,
pos_weight=w)`: -(w * y * log sigmoid(x) + (1 - y) * log (1 - sigmoid(x))). -/
def bceTerm (lg ex : K → K) (w x : K) (y : Bool) : K :=
  -(w * (if y then 1 else 0) * lg (sigmoidK ex x) +
    (1 - (if y then 1 else 0)) * lg (1 - sigmoidK ex x))

/-- Mean of a list (a tensor `.mean()`); the empty mean is junk (0/0 = 0) but
every use below is guarded to nonempty input. -/
def mean (xs : List K) : K := xs.sum / (xs.length : K)

/-- Interpret a field value as a tensor index: succeeds only when the value is
exactly a natural number below the bound (indexing a tensor with a
non-integral or out-of-range value raises in the original). -/
def intIndex (v : K) (n : ℕ) : Option ℕ :=
  (List.range n).find? (fun j => decide ((j : K) = v))

/-- `table[v]` for a field-valued index `v`: the semantics of
`anchors_gt[b][tsdf_target[batch_ind]]`, fallible. -/
def tableLookup (xs : List α) (v : K) : Option α :=
  (intIndex v xs.length).bind (fun j => xs[j]?)

/-- Sequential scatter assignment `xs[idxs] = vals`, fallible on an
out-of-range index (the original raises). -/
def scatterList : List α → List (ℕ × α) → Option (List α)
  | xs, [] => some xs
  | xs, (i, v) :: rest =>
    if i < xs.length then scatterList (xs.set i v) rest else none

/-- `F.cross_entropy(class_logits, anchors_target)`: mean over rows of
log-sum-exp minus the logit selected by the target; raises (none) when a
target is outside [0, number of classes), as the original does. -/
def crossEntropy (lg ex : K → K) (rows : List (List K)) (targets : List ℤ) :
    Option K :=
  if (∀ p ∈ rows.zip targets, 0 ≤ p.2 ∧ p.2 < (p.1.length : ℤ)) ∧
      targets.length = rows.length then
    some (mean ((rows.zip targets).map
      (fun p => lg ((p.1.map ex).sum) - p.1.getD p.2.toNat 0)))
  else none

/-- One element of `F.smooth_l1_loss` (beta = 1). -/
def smoothL1 (d : K) : K := if |d| < 1 then d ^ 2 / 2 else |d| - 1 / 2

/-- `F.smooth_l1_loss(xs, ys)`: mean of the elementwise smooth-L1 terms. -/
def smoothL1Loss (xs ys : List K) : K :=
  mean ((xs.zip ys).map (fun p => smoothL1 (p.1 - p.2)))

/-- One iteration b of the plane ground-truth loop (lines 303-306 of
neucon_network.py): select the rows of the full `r_coords` whose batch column
(last position) equals b, read the TSDF-target entries at those row positions,
use them as indices into that batch item's anchor and residual tables, and
scatter the results into the accumulated target tensors.  Every indexing step
is fallible exactly where the original raises. -/
def planeStep (tsdfT : List K) (rCoords : List (List K)) (aTab : List ℤ)
    (rTab : List (List K)) (b : ℕ) (acc : List ℤ × List (List K)) :
    Option (List ℤ × List (List K)) := do
  let batchInd := (List.range rCoords.length).filter
    (fun j => decide ((rCoords.getD j []).getLastD 0 = (b : K)))
  let vals ← batchInd.mapM (fun j => tsdfT[j]?)
  let aVals ← vals.mapM (fun v => tableLookup aTab v)
  let rVals ← vals.mapM (fun v => tableLookup rTab v)
  let aT ← scatterList acc.1 (batchInd.zip aVals)
  let rT ← scatterList acc.2 (batchInd.zip rVals)
  pure (aT, rT)

/-- Lines 300-306 of neucon_network.py: starting from zero-initialized
`anchors_target` / `residual_target` of the filtered length, run `planeStep`
for every batch item. -/
def planeTargets (tsdfT : List K) (rCoords : List (List K))
    (anchorsGt : List (List ℤ)) (residualGt : List (List (List K))) :
    Option (List ℤ × List (List K)) :=
  (List.range anchorsGt.length).foldlM
    (fun acc b => planeStep tsdfT rCoords (anchorsGt.getD b [])
      (residualGt.getD b []) b acc)
    (List.replicate tsdfT.length 0, List.replicate tsdfT.length [0, 0, 0])

/-- Lines 264-271 of neucon_network.py: `if mask is not None: t = t[mask]`,
applied with one and the same boolean mask to each of the six tensors. -/
def maskSelect (mask : Option (List Bool)) (xs : List α) : List α :=
  match mask with
  | some m => maskFilter m xs
  | none => xs

/-- Lines 299-311 of neucon_network.py: extract the plane ground truth for
the valid voxels (`planeTargets`), compute the 7-way cross-entropy
classification loss, select each voxel's residual row by its ground-truth
anchor index, and compute the smooth-L1 residual loss at scale 20. -/
def planePart (lg ex : K → K) (tsdfT3 : List K) (clsLogits3 : List (List K))
    (residuals3 : List (List (List K))) (rCoords : List (List K))
    (anchorsGt : List (List ℤ)) (residualGt : List (List (List K))) :
    Option (K × K) := do
  let pt ← planeTargets tsdfT3 rCoords anchorsGt residualGt
  let clsLoss ← crossEntropy lg ex clsLogits3 pt.1
  let roi ← (List.range tsdfT3.length).mapM (fun j =>
    if 0 ≤ (pt.1.getD j 0) then
      (residuals3.getD j [])[(pt.1.getD j 0).toNat]?
    else none)
  let residualLoss := smoothL1Loss ((roi.flatten).map (· * 20))
    ((pt.2.flatten).map (· * 20))
  pure (clsLoss, residualLoss)

/-- Lines 245-317 of neucon_network.py (`compute_loss`), with `lg`/`ex` the
logarithm and exponential (Real.log / Real.exp in the actual program).
Returns none where the original raises. -/
def computeLoss (lg ex : K → K) (tsdf occ tsdfTarget : List K)
    (occTarget : List Bool) (clsLogits : List (List K))
    (residuals : List (List (List K))) (anchorsGt : List (List ℤ))
    (residualGt : List (List (List K))) (rCoords : List (List K))
    (lossWeight : K × K) (mask : Option (List Bool)) (posWeight : K) :
    Option K :=
  let tsdf1 := maskSelect mask tsdf
  let occ1 := maskSelect mask occ
  let tsdfTarget1 := maskSelect mask tsdfTarget
  let occTarget1 := maskSelect mask occTarget
  let clsLogits1 := maskSelect mask clsLogits
  let residuals1 := maskSelect mask residuals
  let nAll := occTarget1.length
  let nP := countTrue occTarget1
  if nP = 0 then some (0 * occ1.sum)
  else
    let wFor1 := ((nAll : K) - (nP : K)) / (nP : K) * posWeight
    let occLoss := mean ((occ1.zip occTarget1).map
      (fun p => bceTerm lg ex wFor1 p.1 p.2))
    let tsdfP := (maskFilter occTarget1 tsdf1).map (applyLogTransform lg)
    let tsdfT := (maskFilter occTarget1 tsdfTarget1).map (applyLogTransform lg)
    let tsdfLoss := mean ((tsdfP.zip tsdfT).map (fun p => |p.1 - p.2|))
    let clsLogits2 := maskFilter occTarget1 clsLogits1
    let residuals2 := maskFilter occTarget1 residuals1
    let valid := (List.range tsdfT.length).filter
      (fun j => decide (0 ≤ tsdfT.getD j 0))
    if valid.length ≠ 0 then
      (planePart lg ex (valid.map (fun j => tsdfT.getD j 0))
        (valid.map (fun j => clsLogits2.getD j []))
        (valid.map (fun j => residuals2.getD j [])) rCoords anchorsGt
        residualGt).bind (fun q =>
          some (lossWeight.1 * occLoss + lossWeight.2 * tsdfLoss + q.1 + q.2))
    else
      some (lossWeight.1 * occLoss + lossWeight.2 * tsdfLoss + 0 + 0)

/-- The `outputs` dictionary of `forward`: possibly-present coords and tsdf
entries (absent keys are none). -/
structure NOutputs (K : Type) where
  coords : Option (List (List ℤ))
  tsdf : Option (List K)
  deriving Repr

/-- The configuration surface of NeuConNet that `forward` reads. -/
structure NConfig (K : Type) where
  nLayer : ℕ
  thresholds : List K
  nVox : List ℕ
  voxelSize : K
  trainNumSample : List ℕ
  posWeight : K
  fusionOn : Bool
  fusionFull : Bool
  training : Bool

/-- Per-fragment inputs of `forward`: dense ground-truth volumes per scale,
per-batch-item volume origins and world-to-aligned-camera 3x4 matrices, and
the optional plane ground-truth tables. -/
structure NInputs (K : Type) where
  bs : ℕ
  tsdfVols : ℕ → ℤ → ℤ → ℤ → ℤ → K
  occVols : ℕ → ℤ → ℤ → ℤ → ℤ → Bool
  origin : ℕ → List K
  w2ac : ℕ → List (List K)
  anchorsGt : Option (List (List ℤ))
  residualGt : List (List (List K))

/-- The external modules `forward` calls, as opaque functions of the data they
receive: back_project (returning per-voxel features and visibility counts),
the per-scale sparse conv SPVCNN, the four learned prediction heads, GRUFusion
(returning possibly replaced coords / r_coords / features / targets), and the
random draw of `np.random.choice(num, k, replace=False)`. -/
structure NOracles (K : Type) where
  backProject : ℕ → List (List ℤ) → List (List K) × List ℕ
  spConv : ℕ → List (List K) → List (List K) → List (List K)
  tsdfHead : ℕ → List K → K
  occHead : ℕ → List K → K
  clsHead : ℕ → List K → List K
  resHead : ℕ → List K → List (List K)
  gru : ℕ → List (List ℤ) → List (List K) →
    List (List ℤ) × List (List K) × List (List K) ×
      Option (List K) × Option (List Bool)
  choice : ℕ → ℕ → ℕ → List ℕ

/-- Everything one call of `forward` closes over. -/
structure NArgs (K : Type) where
  cfg : NConfig K
  inputs : NInputs K
  oracle : NOracles K
  outputs0 : NOutputs K

/-- The state carried from one scale to the next: pre_feat, pre_coords, the
loss dictionary built so far (key i stands for `tsdf_occ_loss_i`), and the
outputs dictionary. -/
structure NState (K : Type) where
  preFeat : List (List K)
  preCoords : List (List ℤ)
  lossDict : List (ℕ × K)
  outputs : NOutputs K

/-- `n_scales = len(cfg.THRESHOLDS) - 1`. -/
def nScales (cfg : NConfig K) : ℕ := cfg.thresholds.length - 1

/-- Number of lattice points of `torch.arange(0, n, interval)`. -/
def gridAxis (n interval : ℕ) : List ℤ :=
  (List.range ((n + interval - 1) / interval)).map (fun j => ((j * interval : ℕ) : ℤ))

/-- Modelled from the spec: `generate_grid` (ops/generate_grids.py, not under
src/) produces the ordered lattice of integer voxel coordinates covering the
extent `nVox` at stride `interval`, without batch index. -/
def generateGrid (nVox : List ℕ) (interval : ℕ) : List (List ℤ) :=
  (gridAxis (nVox.getD 0 0) interval).flatMap (fun x =>
    (gridAxis (nVox.getD 1 0) interval).flatMap (fun y =>
      (gridAxis (nVox.getD 2 0) interval).map (fun z => [x, y, z])))

/-- Lines 145-148 of neucon_network.py: prepend each batch index to every
grid coordinate and concatenate over the batch. -/
def batchGrid (bs : ℕ) (g : List (List ℤ)) : List (List ℤ) :=
  (List.range bs).flatMap (fun b => g.map (fun c => ((b : ℤ) :: c)))

/-- 3x4-matrix application, `coords_batch @ world_to_aligned_camera[:3, :].T`
for one homogeneous coordinate row. -/
def matVec (m : List (List K)) (v : List K) : List K :=
  m.map (fun row => ((row.zip v).map (fun p => p.1 * p.2)).sum)

/-- Lines 170-180 of neucon_network.py: scale voxel coordinates to world
space, apply the per-batch-item world-to-aligned-camera transform, and move
the batch index to the last column. -/
def rCoordsOf (voxelSize : K) (origin : ℕ → List K) (w2ac : ℕ → List (List K))
    (upCoords : List (List ℤ)) : List (List K) :=
  upCoords.map (fun c =>
    let b := (c.getD 0 0).toNat
    let w := [((c.getD 1 0 : ℤ) : K) * voxelSize + (origin b).getD 0 0,
              ((c.getD 2 0 : ℤ) : K) * voxelSize + (origin b).getD 1 0,
              ((c.getD 3 0 : ℤ) : K) * voxelSize + (origin b).getD 2 0, 1]
    matVec (w2ac b) w ++ [((c.getD 0 0 : ℤ) : K)])

/-- Thresholding plus visibility gating (lines 210-211 of neucon_network.py):
`occupancy = occ.squeeze(1) > THRESHOLDS[i]` then
`occupancy[grid_mask == False] = False`. -/
def occupancyOf (thr : K) (occ : List K) (gmask : List Bool) : List Bool :=
  List.zipWith (fun o m => decide (thr < o) && m) occ gmask

/-- All the intermediate tensors of one iteration of forward's coarse-to-fine
loop (lines 138-241 of neucon_network.py), in source order. -/
structure StepData (K : Type) where
  upCoords0 : List (List ℤ)
  upCoords : List (List ℤ)
  rCoords : List (List K)
  feat : List (List K)
  tsdfTarget : Option (List K)
  occTarget : Option (List Bool)
  gridMask : List Bool
  tsdf : List K
  occ : List K
  clsLogits : List (List K)
  residuals : List (List (List K))
  lossVal : Option K
  occupancy : List Bool
  occupancyS : List Bool
  preCoords : List (List ℤ)
  preFeat : List (List K)
  preTsdf : List K
  preOcc : List K

/-- One iteration of forward's loop at scale index i, up to (but excluding)
the control-flow decisions: every `let` mirrors one statement of lines
138-241 of neucon_network.py. -/
def stepData (lg ex : K → K) (A : NArgs K) (i : ℕ) (st : NState K) :
    StepData K :=
  let interval : ℕ := 2 ^ (nScales A.cfg - i)
  let scale := nScales A.cfg - i
  let upFeat0 := if i = 0 then [] else
    (upsample st.preFeat st.preCoords (interval : ℤ)).1
  let upCoords0 := if i = 0 then
    batchGrid A.inputs.bs (generateGrid A.cfg.nVox interval)
  else (upsample st.preFeat st.preCoords (interval : ℤ)).2
  let bp := A.oracle.backProject i upCoords0
  let gridMask0 := bp.2.map (fun c => decide (1 < c))
  let featIn := if i = 0 then bp.1 else
    List.zipWith (fun v u => v ++ u) bp.1 upFeat0
  let target0 := getTarget (A.inputs.tsdfVols scale) (A.inputs.occVols scale)
    upCoords0 scale
  let rCoords0 := rCoordsOf A.cfg.voxelSize A.inputs.origin A.inputs.w2ac upCoords0
  let featConv := A.oracle.spConv i featIn rCoords0
  let fused := if A.cfg.fusionOn then A.oracle.gru i upCoords0 featConv
    else (upCoords0, rCoords0, featConv, some target0.1, some target0.2)
  let upCoords := fused.1
  let rCoords := fused.2.1
  let feat := fused.2.2.1
  let tsdfTarget := fused.2.2.2.1
  let occTarget := fused.2.2.2.2
  let gridMask := if A.cfg.fusionOn && A.cfg.fusionFull then
    List.replicate feat.length true else gridMask0
  let tsdf := feat.map (A.oracle.tsdfHead i)
  let occ := feat.map (A.oracle.occHead i)
  let clsLogits := feat.map (A.oracle.clsHead i)
  let residuals := feat.map (A.oracle.resHead i)
  let lossVal := if tsdfTarget.isSome && A.inputs.anchorsGt.isSome &&
      A.cfg.training then
    computeLoss lg ex tsdf occ (tsdfTarget.getD []) (occTarget.getD [])
      clsLogits residuals (A.inputs.anchorsGt.getD []) A.inputs.residualGt
      rCoords (1, 1) (some gridMask) A.cfg.posWeight
  else some 0
  let occupancy := occupancyOf (A.cfg.thresholds.getD i 0) occ gridMask
  let num := countTrue occupancy
  let occupancyS := sparsify A.cfg.training (A.cfg.trainNumSample.getD i 0)
    A.inputs.bs occupancy
    (A.oracle.choice i num (num - A.cfg.trainNumSample.getD i 0 * A.inputs.bs))
  let preCoords := maskFilter occupancyS upCoords
  let preFeat0 := maskFilter occupancyS feat
  let preTsdf := maskFilter occupancyS tsdf
  let preOcc := maskFilter occupancyS occ
  let preFeat := List.zipWith (fun f p => f ++ [p.1, p.2]) preFeat0
    (preTsdf.zip preOcc)
  { upCoords0 := upCoords0, upCoords := upCoords, rCoords := rCoords,
    feat := feat, tsdfTarget := tsdfTarget, occTarget := occTarget,
    gridMask := gridMask, tsdf := tsdf, occ := occ, clsLogits := clsLogits,
    residuals := residuals, lossVal := lossVal, occupancy := occupancy,
    occupancyS := occupancyS, preCoords := preCoords, preFeat := preFeat,
    preTsdf := preTsdf, preOcc := preOcc }

/-- Lines 227-231 of neucon_network.py: does some batch item have zero
surviving voxels? -/
def batchEmpty (bs : ℕ) (pc : List (List ℤ)) : Bool :=
  (List.range bs).any
    (fun b => decide (pc.countP (fun c => decide (c.getD 0 0 = (b : ℤ))) = 0))

/-- One full iteration of forward's loop with its control flow: none when
compute_loss raised; `Sum.inl` is the early return of lines 215-217 /
229-231 with the outputs and loss dictionary accumulated so far; `Sum.inr`
carries the state to the next scale (setting the final outputs at the last
scale, lines 239-241). -/
def scaleStep (lg ex : K → K) (A : NArgs K) (i : ℕ) (st : NState K) :
    Option (Sum (NOutputs K × List (ℕ × K)) (NState K)) :=
  let d := stepData lg ex A i st
  match d.lossVal with
  | none => none
  | some l =>
    let ld := st.lossDict ++ [(i, l)]
    if countTrue d.occupancy = 0 then some (Sum.inl (st.outputs, ld))
    else if batchEmpty A.inputs.bs d.preCoords then
      some (Sum.inl (st.outputs, ld))
    else some (Sum.inr
      { preFeat := d.preFeat
        preCoords := d.preCoords
        lossDict := ld
        outputs := if i = A.cfg.nLayer - 1 then
          { coords := some d.preCoords, tsdf := some d.preTsdf }
        else st.outputs })

/-- forward's loop `for i in range(cfg.N_LAYER)` from scale i with the given
fuel (remaining number of scales). -/
def forwardLoop (lg ex : K → K) (A : NArgs K) :
    ℕ → ℕ → NState K → Option (NOutputs K × List (ℕ × K))
  | 0, _, st => some (st.outputs, st.lossDict)
  | fuel + 1, i, st =>
    match scaleStep lg ex A i st with
    | none => none
    | some (Sum.inl r) => some r
    | some (Sum.inr st') => forwardLoop lg ex A fuel (i + 1) st'

/-- The state at entry of the loop. -/
def initState (A : NArgs K) : NState K := ⟨[], [], [], A.outputs0⟩

/-- Lines 109-243 of neucon_network.py (`forward`): run the coarse-to-fine
loop over all cfg.N_LAYER scales; none models an uncaught exception. -/
def forward (lg ex : K → K) (A : NArgs K) :
    Option (NOutputs K × List (ℕ × K)) :=
  forwardLoop lg ex A A.cfg.nLayer 0 (initState A)

/-- The run of forward's loop arrives at scale k with state st. -/
inductive Reaches (lg ex : K → K) (A : NArgs K) : ℕ → NState K → Prop where
  | zero : Reaches lg ex A 0 (initState A)
  | succ {k : ℕ} {st st' : NState K} : Reaches lg ex A k st →
      scaleStep lg ex A k st = some (Sum.inr st') → Reaches lg ex A (k + 1) st'

/- ------------------------------------------------------------------ -/
/- List-level helper lemmas.                                          -/
/- ------------------------------------------------------------------ -/

theorem maskFilter_nil (m : List Bool) : maskFilter m ([] : List α) = [] := by
  simp [maskFilter]

theorem maskFilter_cons (b : Bool) (m : List Bool) (x : α) (xs : List α) :
    maskFilter (b :: m) (x :: xs) =
      if b then x :: maskFilter m xs else maskFilter m xs := by
  cases b <;> simp [maskFilter]

theorem getElem?_flatMap_block (xs : List α) (f : α → List β) (L : ℕ)
    (hf : ∀ x ∈ xs, (f x).length = L) (p k : ℕ) (hk : k < L) :
    (xs.flatMap f)[L * p + k]? = xs[p]?.bind (fun x => (f x)[k]?) := by
  induction xs generalizing p with
  | nil => simp
  | cons a xs ih =>
    have ha : (f a).length = L := hf a (List.mem_cons_self a xs)
    cases p with
    | zero =>
      have hlt : L * 0 + k < (f a).length := by omega
      simp only [List.flatMap_cons]
      rw [List.getElem?_append, if_pos hlt]
      simp [Nat.mul_zero, Nat.zero_add]
    | succ p =>
      have hge : ¬ (L * (p + 1) + k < (f a).length) := by
        rw [ha]; push_neg; nlinarith
      simp only [List.flatMap_cons]
      rw [List.getElem?_append, if_neg hge]
      have harith : L * (p + 1) + k - (f a).length = L * p + k := by
        rw [ha]; ring_nf; omega
      rw [harith, ih (fun x hx => hf x (List.mem_cons_of_mem a hx)) p]
      simp

theorem length_addInterval (c : List ℤ) (ps : List ℕ) (d : ℤ) :
    (addInterval c ps d).length = c.length := by
  simp [addInterval]

theorem length_childCoords (c : List ℤ) (d : ℤ) :
    (childCoords c d).length = 8 := by
  simp [childCoords, posList]

/-- C3: for any N parent voxels of feature width C, upsample returns 8N
feature rows of width C and 8N coordinate rows of width 4; child 0 copies the
parent coordinate, every child copies the parent feature, and children 1..7
add `interval` along the seven position lists, which are exactly the seven
distinct non-empty subsets of the {x, y, z} components (positions 1, 2, 3). -/
theorem length_flatMap_const (xs : List α) (f : α → List β) (L : ℕ)
    (hf : ∀ x ∈ xs, (f x).length = L) : (xs.flatMap f).length = L * xs.length := by
  induction xs with
  | nil => simp
  | cons a xs ih =>
    simp only [List.flatMap_cons, List.length_append, hf a (List.mem_cons_self a xs),
      ih (fun x hx => hf x (List.mem_cons_of_mem a hx)), List.length_cons]
    ring

/-- C3: for any N parent voxels of feature width C, upsample returns 8N
feature rows of width C and 8N coordinate rows of width 4; child 0 copies the
parent coordinate, every child copies the parent feature, and children 1..7
add `interval` along the seven position lists, which are exactly the seven
distinct non-empty subsets of the {x, y, z} components (positions 1, 2, 3). -/
theorem c3_upsample_shape_and_children (preFeat : List (List ℝ))
    (preCoords : List (List ℤ)) (d : ℤ) (N C : ℕ)
    (hF : preFeat.length = N) (hC : preCoords.length = N)
    (hw : ∀ f ∈ preFeat, f.length = C) (h4 : ∀ c ∈ preCoords, c.length = 4) :
    (upsample preFeat preCoords d).1.length = 8 * N ∧
    (upsample preFeat preCoords d).2.length = 8 * N ∧
    (∀ r ∈ (upsample preFeat preCoords d).1, r.length = C) ∧
    (∀ c ∈ (upsample preFeat preCoords d).2, c.length = 4) ∧
    (∀ p k, k < 8 →
      (upsample preFeat preCoords d).1[8 * p + k]? = preFeat[p]?) ∧
    (∀ p, (upsample preFeat preCoords d).2[8 * p]? = preCoords[p]?) ∧
    (∀ p k, 1 ≤ k → k < 8 →
      (upsample preFeat preCoords d).2[8 * p + k]? =
        (preCoords[p]?).map (fun c => addInterval c (posList.getD (k - 1) []) d)) ∧
    (posList.map (fun l => l.toFinset)).Nodup ∧
    (posList.map (fun l => l.toFinset)).toFinset =
      ({1, 2, 3} : Finset ℕ).powerset.erase ∅ := by
  subst hF
  refine ⟨?_, ?_, ?_, ?_, ?_, ?_, ?_, by decide, by decide⟩
  · rw [upsample]
    exact length_flatMap_const preFeat _ 8 (fun x _ => List.length_replicate 8 x)
  · rw [upsample, ← hC]
    exact length_flatMap_const preCoords _ 8 (fun x _ => length_childCoords x d)
  · intro r hr
    simp only [upsample, List.mem_flatMap] at hr
    obtain ⟨x, hx, hrx⟩ := hr
    rw [List.eq_of_mem_replicate hrx]
    exact hw x hx
  · intro c hc
    simp only [upsample, List.mem_flatMap] at hc
    obtain ⟨x, hx, hcx⟩ := hc
    have h4x := h4 x hx
    simp only [childCoords, List.mem_cons, List.mem_map] at hcx
    rcases hcx with hcx | ⟨ps, hps, hcx⟩
    · exact hcx ▸ h4x
    · rw [← hcx, length_addInterval]; exact h4x
  · intro p k hk
    rw [upsample]
    rw [getElem?_flatMap_block preFeat (fun f => List.replicate 8 f) 8
      (fun x _ => List.length_replicate 8 x) p k hk]
    cases hp : preFeat[p]? with
    | none => simp
    | some f =>
      simp only [Option.some_bind]
      rw [List.getElem?_replicate, if_pos hk]
  · intro p
    rw [upsample]
    have h0 : (0 : ℕ) < 8 := by omega
    rw [show 8 * p = 8 * p + 0 by omega]
    rw [getElem?_flatMap_block preCoords (fun c => childCoords c d) 8
      (fun x _ => length_childCoords x d) p 0 h0]
    cases hp : preCoords[p]? with
    | none => simp
    | some c => rfl
  · intro p k hk1 hk8
    rw [upsample]
    rw [getElem?_flatMap_block preCoords (fun c => childCoords c d) 8
      (fun x _ => length_childCoords x d) p k hk8]
    cases hp : preCoords[p]? with
    | none => simp
    | some c =>
      simp only [Option.some_bind, Option.map_some']
      obtain ⟨j, hj⟩ : ∃ j, k = j + 1 := ⟨k - 1, by omega⟩
      subst hj
      simp only [childCoords, List.getElem?_cons_succ, Nat.add_sub_cancel]
      rw [List.getElem?_map]
      have hj7 : j < posList.length := by simp [posList]; omega
      rw [List.getElem?_eq_getElem hj7]
      simp [List.getD, List.getElem?_eq_getElem hj7]


/-- C3 witness: the upsample law evaluated at a concrete one-parent input. -/
theorem c3_upsample_witness :
    (upsample [[(1 : ℝ), 2]] [[(0 : ℤ), 5, 6, 7]] 10).1.length = 8 * 1 ∧
    (upsample [[(1 : ℝ), 2]] [[(0 : ℤ), 5, 6, 7]] 10).2.length = 8 * 1 :=
  ⟨(c3_upsample_shape_and_children [[(1 : ℝ), 2]] [[(0 : ℤ), 5, 6, 7]] 10 1 2
      rfl rfl (by simp) (by simp)).1,
   (c3_upsample_shape_and_children [[(1 : ℝ), 2]] [[(0 : ℤ), 5, 6, 7]] 10 1 2
      rfl rfl (by simp) (by simp)).2.1⟩

/-- C7: get_target integer-divides the spatial components (and not the batch
index) of each voxel coordinate by 2^scale, indexes the dense ground-truth
volumes directly at (batch, x, y, z), and preserves the voxel-to-target
correspondence index for index (same length, j-th target from j-th voxel). -/
theorem c7_get_target_direct_indexing (tsdfVol : ℤ → ℤ → ℤ → ℤ → ℝ)
    (occVol : ℤ → ℤ → ℤ → ℤ → Bool) (coords : List (List ℤ)) (scale : ℕ) :
    (getTarget tsdfVol occVol coords scale).1.length = coords.length ∧
    (getTarget tsdfVol occVol coords scale).2.length = coords.length ∧
    (∀ j : ℕ, (getTarget tsdfVol occVol coords scale).1[j]? =
      (coords[j]?).map (fun (c : List ℤ) => tsdfVol (c.getD 0 0)
        ((c.getD 1 0).fdiv (2 ^ scale)) ((c.getD 2 0).fdiv (2 ^ scale))
        ((c.getD 3 0).fdiv (2 ^ scale)))) ∧
    (∀ j : ℕ, (getTarget tsdfVol occVol coords scale).2[j]? =
      (coords[j]?).map (fun (c : List ℤ) => occVol (c.getD 0 0)
        ((c.getD 1 0).fdiv (2 ^ scale)) ((c.getD 2 0).fdiv (2 ^ scale))
        ((c.getD 3 0).fdiv (2 ^ scale)))) := by
  refine ⟨by simp [getTarget], by simp [getTarget], ?_, ?_⟩ <;> intro j <;>
    simp only [getTarget, List.map_map, List.getElem?_map] <;>
    cases coords[j]? <;> rfl

/- ------------------------------------------------------------------ -/
/- Counting lemmas for the training-time sampling step.               -/
/- ------------------------------------------------------------------ -/

theorem mem_shiftDown (s : List ℕ) (n : ℕ) : n ∈ shiftDown s ↔ n + 1 ∈ s := by
  simp only [shiftDown, List.mem_filterMap]
  constructor
  · rintro ⟨a, ha, hm⟩
    cases a with
    | zero => simp at hm
    | succ m => simp at hm; exact hm ▸ ha
  · intro h
    exact ⟨n + 1, h, rfl⟩

theorem trueIndices_cons_true (l : List Bool) :
    trueIndices (true :: l) = 0 :: (trueIndices l).map (· + 1) := by
  simp [trueIndices]

theorem trueIndices_cons_false (l : List Bool) :
    trueIndices (false :: l) = (trueIndices l).map (· + 1) := by
  simp [trueIndices]

theorem length_trueIndices (m : List Bool) :
    (trueIndices m).length = countTrue m := by
  induction m with
  | nil => rfl
  | cons b rest ih =>
    have ih' : (trueIndices rest).length = rest.countP id := ih
    cases b <;>
      simp [trueIndices_cons_true, trueIndices_cons_false, countTrue,
        List.countP_cons, ih']

theorem mem_trueIndices (m : List Bool) (j : ℕ) :
    j ∈ trueIndices m ↔ m.getD j false = true := by
  induction m generalizing j with
  | nil => simp [trueIndices]
  | cons b rest ih =>
    cases b <;> cases j <;>
      simp [trueIndices_cons_true, trueIndices_cons_false, List.mem_map, ih]

theorem nodup_trueIndices (m : List Bool) : (trueIndices m).Nodup := by
  induction m with
  | nil => exact List.nodup_nil
  | cons b rest ih =>
    have hmap : ((trueIndices rest).map (· + 1)).Nodup :=
      ih.map (fun a a' h => by omega)
    cases b
    · simpa [trueIndices_cons_false] using hmap
    · rw [trueIndices_cons_true, List.nodup_cons]
      exact ⟨by simp, hmap⟩

theorem trueIndices_clearIdx (m : List Bool) (s : List ℕ) :
    trueIndices (clearIdx m s) =
      (trueIndices m).filter (fun j => !(decide (j ∈ s))) := by
  induction m generalizing s with
  | nil => rfl
  | cons b rest ih =>
    have hfm : ((trueIndices rest).map (· + 1)).filter (fun j => !(decide (j ∈ s)))
        = ((trueIndices rest).filter
            (fun j => !(decide (j ∈ shiftDown s)))).map (· + 1) := by
      rw [List.filter_map]
      congr 1
      refine List.filter_congr (fun a _ => ?_)
      simp [Function.comp, mem_shiftDown]
    cases b
    · rw [show clearIdx (false :: rest) s =
          false :: clearIdx rest (shiftDown s) from by simp [clearIdx],
        trueIndices_cons_false, trueIndices_cons_false, ih, ← hfm]
    · rw [show clearIdx (true :: rest) s =
          (!(decide (0 ∈ s))) :: clearIdx rest (shiftDown s) from by simp [clearIdx],
        trueIndices_cons_true]
      by_cases h0 : 0 ∈ s
      · rw [show (!(decide (0 ∈ s))) = false by simp [h0], trueIndices_cons_false,
          ih, ← hfm, List.filter_cons]
        simp [h0]
      · rw [show (!(decide (0 ∈ s))) = true by simp [h0], trueIndices_cons_true,
          ih, ← hfm, List.filter_cons]
        simp [h0]

theorem clearIdx_getD (m : List Bool) (s : List ℕ) (j : ℕ) :
    (clearIdx m s).getD j false = (m.getD j false && !(decide (j ∈ s))) := by
  induction m generalizing s j with
  | nil => simp [clearIdx]
  | cons b rest ih =>
    cases j with
    | zero => rfl
    | succ j =>
      show (clearIdx rest (shiftDown s)).getD j false = _
      rw [ih (shiftDown s) j]
      have hm : (decide (j ∈ shiftDown s)) = (decide (j + 1 ∈ s)) := by
        simp [mem_shiftDown]
      rw [hm]
      rfl

theorem countTrue_clearIdx (m : List Bool) (s : List ℕ) (hs : s.Nodup)
    (hsub : ∀ j ∈ s, j ∈ trueIndices m) :
    countTrue (clearIdx m s) = countTrue m - s.length := by
  have hT : (trueIndices m).Nodup := nodup_trueIndices m
  rw [← length_trueIndices, ← length_trueIndices, trueIndices_clearIdx]
  have hf : ((trueIndices m).filter (fun j => !(decide (j ∈ s)))).Nodup :=
    hT.filter _
  rw [← List.toFinset_card_of_nodup hf, ← List.toFinset_card_of_nodup hT,
    ← List.toFinset_card_of_nodup hs, List.toFinset_filter]
  have hsdiff : (trueIndices m).toFinset.filter
      (fun j => (!(decide (j ∈ s))) = true) =
      (trueIndices m).toFinset \ s.toFinset := by
    ext j
    simp [Finset.mem_sdiff, List.mem_toFinset]
  rw [hsdiff, Finset.card_sdiff]
  intro j hj
  simp only [List.mem_toFinset] at hj ⊢
  exact hsub j hj

theorem countTrue_sampleOccupancy (occ : List Bool) (choice : List ℕ)
    (hnd : choice.Nodup) (hlt : ∀ c ∈ choice, c < countTrue occ) :
    countTrue (sampleOccupancy occ choice) = countTrue occ - choice.length := by
  have hTlen : (trueIndices occ).length = countTrue occ := length_trueIndices occ
  have hTnd : (trueIndices occ).Nodup := nodup_trueIndices occ
  have hget : ∀ c ∈ choice, ∃ h : c < (trueIndices occ).length,
      (trueIndices occ).getD c 0 = (trueIndices occ).get ⟨c, h⟩ := by
    intro c hc
    have h : c < (trueIndices occ).length := by rw [hTlen]; exact hlt c hc
    exact ⟨h, List.getD_eq_getElem _ _ h⟩
  rw [sampleOccupancy, countTrue_clearIdx]
  · rw [List.length_map]
  · refine List.Nodup.map_on ?_ hnd
    intro x hx y hy hxy
    obtain ⟨hxl, hxe⟩ := hget x hx
    obtain ⟨hyl, hye⟩ := hget y hy
    rw [hxe, hye] at hxy
    exact Fin.mk.injEq _ _ _ _ ▸ (hTnd.get_inj_iff.mp hxy)
  · intro j hj
    simp only [List.mem_map] at hj
    obtain ⟨c, hc, hcj⟩ := hj
    obtain ⟨hl, he⟩ := hget c hc
    rw [← hcj, he]
    exact List.get_mem _ c hl

/-- C5: during training, when the occupancy-passing count exceeds
TRAIN_NUM_SAMPLE[i] * bs, the sparsification step clears the flags of a
without-replacement draw so that exactly the cap remain selected, never
selecting a voxel that was not already passing; when the count does not
exceed the cap, or when not training, occupancy is returned unchanged.  The
draw `choice` stands for `np.random.choice(num, num - cap * bs,
replace=False)`: a duplicate-free list of positions below the count. -/
theorem c5_training_sampling_cap (training : Bool) (cap bs : ℕ)
    (occ : List Bool) (choice : List ℕ) (hnd : choice.Nodup)
    (hlt : ∀ c ∈ choice, c < countTrue occ)
    (hlen : choice.length = countTrue occ - cap * bs) :
    ((training = true ∧ cap * bs < countTrue occ) →
      countTrue (sparsify training cap bs occ choice) = cap * bs ∧
      ∀ j : ℕ, (sparsify training cap bs occ choice).getD j false = true →
        occ.getD j false = true) ∧
    ((training = false ∨ countTrue occ ≤ cap * bs) →
      sparsify training cap bs occ choice = occ) := by
  constructor
  · rintro ⟨ht, hcap⟩
    have hcond : (training && decide (cap * bs < countTrue occ)) = true := by
      simp [ht, hcap]
    rw [sparsify, if_pos hcond]
    constructor
    · rw [countTrue_sampleOccupancy occ choice hnd hlt, hlen]
      omega
    · intro j hj
      rw [sampleOccupancy, clearIdx_getD] at hj
      exact (Bool.and_eq_true_iff.mp hj).1
  · intro h
    have hcond : (training && decide (cap * bs < countTrue occ)) = false := by
      rcases h with h | h
      · simp [h]
      · simp [Nat.not_lt.mpr h]
    rw [sparsify, if_neg]
    simp [hcond]

/-- C5 witness: four passing voxels, cap 1, one concrete draw of two. -/
theorem c5_training_sampling_cap_witness :
    countTrue (sparsify true 1 1 [true, false, true, true] [0, 2]) = 1 * 1 ∧
    sparsify false 1 1 [true, false, true, true] [0, 2] =
      [true, false, true, true] :=
  ⟨((c5_training_sampling_cap true 1 1 [true, false, true, true] [0, 2]
      (by decide) (by decide) (by decide)).1 ⟨rfl, by decide⟩).1,
   (c5_training_sampling_cap false 1 1 [true, false, true, true] [0, 2]
      (by decide) (by decide) (by decide)).2 (Or.inl rfl)⟩

/-- C4: when zero positive occupancy targets remain after the visibility
mask, compute_loss does not raise and returns the zero-weighted sum
`0 * occ.sum()` over the (masked) predictions, which equals exactly 0. -/
theorem c4_degenerate_batch_zero_loss (tsdf occ tsdfTarget : List ℝ)
    (occTarget : List Bool) (clsLogits : List (List ℝ))
    (residuals : List (List (List ℝ))) (anchorsGt : List (List ℤ))
    (residualGt : List (List (List ℝ))) (rCoords : List (List ℝ))
    (lw : ℝ × ℝ) (mask : Option (List Bool)) (pw : ℝ)
    (h : countTrue (maskSelect mask occTarget) = 0) :
    computeLoss Real.log Real.exp tsdf occ tsdfTarget occTarget clsLogits
      residuals anchorsGt residualGt rCoords lw mask pw =
      some (0 * (maskSelect mask occ).sum) ∧
    computeLoss Real.log Real.exp tsdf occ tsdfTarget occTarget clsLogits
      residuals anchorsGt residualGt rCoords lw mask pw = some 0 := by
  have h1 : computeLoss Real.log Real.exp tsdf occ tsdfTarget occTarget
      clsLogits residuals anchorsGt residualGt rCoords lw mask pw =
      some (0 * (maskSelect mask occ).sum) := by
    simp only [computeLoss]
    rw [if_pos h]
  exact ⟨h1, by rw [h1, zero_mul]⟩

/-- C4 witness: a single voxel whose occupancy target is negative. -/
theorem c4_degenerate_batch_zero_loss_witness :
    computeLoss Real.log Real.exp [0] [0] [0] [false] [[0]] [[[0]]] [[0]]
      [[[0]]] [[0]] (1, 1) (some [true]) 1 = some 0 :=
  (c4_degenerate_batch_zero_loss [0] [0] [0] [false] [[0]] [[[0]]] [[0]]
    [[[0]]] [[0]] (1, 1) (some [true]) 1 (by decide)).2

theorem maskFilter_cons_true (m : List Bool) (x : α) (xs : List α) :
    maskFilter (true :: m) (x :: xs) = x :: maskFilter m xs := by
  simp [maskFilter]

theorem maskFilter_cons_false (m : List Bool) (x : α) (xs : List α) :
    maskFilter (false :: m) (x :: xs) = maskFilter m xs := by
  simp [maskFilter]

theorem maskFilter_eq_filterMap (m : List Bool) (xs : List α) :
    maskFilter m xs = (trueIndices m).filterMap (fun j => xs[j]?) := by
  induction m generalizing xs with
  | nil => simp [maskFilter, trueIndices]
  | cons b m ih =>
    cases xs with
    | nil =>
      rw [maskFilter_nil, List.filterMap_eq_nil_iff.mpr]
      intro a _
      simp
    | cons x xs =>
      cases b
      · rw [maskFilter_cons_false, trueIndices_cons_false, List.filterMap_map,
          ih]
        exact (List.filterMap_congr (fun a _ => by simp [Function.comp])).symm
      · rw [maskFilter_cons_true, trueIndices_cons_true, List.filterMap_cons,
          List.filterMap_map]
        simp only [List.getElem?_cons_zero]
        rw [ih]
        congr 1
        exact (List.filterMap_congr (fun a _ => by simp [Function.comp])).symm

theorem maskFilter_zipWith {γ : Type} (f : α → β → γ) (m : List Bool)
    (xs : List α) (ys : List β) (h : xs.length = ys.length) :
    maskFilter m (List.zipWith f xs ys) =
      List.zipWith f (maskFilter m xs) (maskFilter m ys) := by
  induction m generalizing xs ys with
  | nil => simp [maskFilter]
  | cons b m ih =>
    cases xs with
    | nil =>
      cases ys with
      | nil => simp [maskFilter]
      | cons y ys => simp at h
    | cons x xs =>
      cases ys with
      | nil => simp at h
      | cons y ys =>
        simp only [List.length_cons, Nat.add_right_cancel_iff] at h
        cases b
        · rw [List.zipWith_cons_cons, maskFilter_cons_false,
            maskFilter_cons_false, maskFilter_cons_false]
          exact ih xs ys h
        · rw [List.zipWith_cons_cons, maskFilter_cons_true,
            maskFilter_cons_true, maskFilter_cons_true,
            List.zipWith_cons_cons, ih xs ys h]

theorem maskFilter_zip (m : List Bool) (xs : List α) (ys : List β)
    (h : xs.length = ys.length) :
    maskFilter m (xs.zip ys) = (maskFilter m xs).zip (maskFilter m ys) :=
  maskFilter_zipWith Prod.mk m xs ys h

theorem maskFilter_subset (m : List Bool) (xs : List α) (x : α)
    (h : x ∈ maskFilter m xs) : x ∈ xs := by
  simp only [maskFilter, List.mem_map, List.mem_filter] at h
  obtain ⟨p, ⟨hmem, _⟩, hx⟩ := h
  exact hx ▸ (List.of_mem_zip hmem).1

theorem mem_zipWith_decomp {γ : Type} {f : α → β → γ} {l₁ : List α}
    {l₂ : List β} {x : γ} (h : x ∈ List.zipWith f l₁ l₂) :
    ∃ a ∈ l₁, ∃ b ∈ l₂, x = f a b := by
  induction l₁ generalizing l₂ with
  | nil => simp at h
  | cons a l₁ ih =>
    cases l₂ with
    | nil => simp at h
    | cons b l₂ =>
      rw [List.zipWith_cons_cons, List.mem_cons] at h
      rcases h with h | h
      · exact ⟨a, List.mem_cons_self a l₁, b, List.mem_cons_self b l₂, h⟩
      · obtain ⟨a', ha', b', hb', hx⟩ := ih h
        exact ⟨a', List.mem_cons_of_mem a ha', b',
          List.mem_cons_of_mem b hb', hx⟩

theorem scaleStep_inr_fields (lg ex : K → K) (A : NArgs K) (i : ℕ)
    (st st' : NState K)
    (h : scaleStep lg ex A i st = some (Sum.inr st')) :
    (∃ l, (stepData lg ex A i st).lossVal = some l ∧
      st'.lossDict = st.lossDict ++ [(i, l)]) ∧
    st'.preFeat = (stepData lg ex A i st).preFeat ∧
    st'.preCoords = (stepData lg ex A i st).preCoords ∧
    st'.outputs = (if i = A.cfg.nLayer - 1 then
      { coords := some (stepData lg ex A i st).preCoords,
        tsdf := some (stepData lg ex A i st).preTsdf }
      else st.outputs) := by
  simp only [scaleStep] at h
  cases hv : (stepData lg ex A i st).lossVal with
  | none => rw [hv] at h; exact absurd h (by simp)
  | some l =>
    rw [hv] at h
    simp only at h
    split_ifs at h with h0 h1 h2
    · exact absurd h (by simp)
    · exact absurd h (by simp)
    · simp only [Option.some.injEq, Sum.inr.injEq] at h
      subst h
      exact ⟨⟨l, rfl, rfl⟩, rfl, rfl, by rw [if_pos h2]⟩
    · simp only [Option.some.injEq, Sum.inr.injEq] at h
      subst h
      exact ⟨⟨l, rfl, rfl⟩, rfl, rfl, by rw [if_neg h2]⟩

theorem stepData_tsdf_eq (lg ex : K → K) (A : NArgs K) (i : ℕ) (st : NState K) :
    (stepData lg ex A i st).tsdf =
      (stepData lg ex A i st).feat.map (A.oracle.tsdfHead i) := rfl

theorem stepData_occ_eq (lg ex : K → K) (A : NArgs K) (i : ℕ) (st : NState K) :
    (stepData lg ex A i st).occ =
      (stepData lg ex A i st).feat.map (A.oracle.occHead i) := rfl

theorem stepData_preFeat_eq (lg ex : K → K) (A : NArgs K) (i : ℕ)
    (st : NState K) :
    (stepData lg ex A i st).preFeat =
      List.zipWith (fun f p => f ++ [p.1, p.2])
        (maskFilter (stepData lg ex A i st).occupancyS
          (stepData lg ex A i st).feat)
        ((maskFilter (stepData lg ex A i st).occupancyS
            (stepData lg ex A i st).tsdf).zip
          (maskFilter (stepData lg ex A i st).occupancyS
            (stepData lg ex A i st).occ)) := rfl

theorem stepData_preCoords_eq (lg ex : K → K) (A : NArgs K) (i : ℕ)
    (st : NState K) :
    (stepData lg ex A i st).preCoords =
      maskFilter (stepData lg ex A i st).occupancyS
        (stepData lg ex A i st).upCoords := rfl

/-- C9: when a scale hands control to the next one, the parent features it
passes on are exactly the occupancy-surviving rows of the refined feature
tensor with the predicted tsdf value and occupancy logit concatenated on the
right (so each row is 2 wider than the feature width), and they stay
index-aligned with the surviving coordinates (one common mask selection over
rows pairing coordinates with augmented features). -/
theorem c9_next_scale_parent_features (A : NArgs ℝ) (i : ℕ) (st st' : NState ℝ)
    (C : ℕ)
    (hstep : scaleStep Real.log Real.exp A i st = some (Sum.inr st'))
    (hC : ∀ f ∈ (stepData Real.log Real.exp A i st).feat, f.length = C)
    (hlen : (stepData Real.log Real.exp A i st).upCoords.length =
      (stepData Real.log Real.exp A i st).feat.length) :
    st'.preFeat = maskFilter (stepData Real.log Real.exp A i st).occupancyS
      (List.zipWith (fun f p => f ++ [p.1, p.2])
        (stepData Real.log Real.exp A i st).feat
        ((stepData Real.log Real.exp A i st).tsdf.zip
          (stepData Real.log Real.exp A i st).occ)) ∧
    (∀ r ∈ st'.preFeat, r.length = C + 2) ∧
    st'.preCoords.zip st'.preFeat =
      maskFilter (stepData Real.log Real.exp A i st).occupancyS
        ((stepData Real.log Real.exp A i st).upCoords.zip
          (List.zipWith (fun f p => f ++ [p.1, p.2])
            (stepData Real.log Real.exp A i st).feat
            ((stepData Real.log Real.exp A i st).tsdf.zip
              (stepData Real.log Real.exp A i st).occ))) := by
  obtain ⟨⟨l, hl, hld⟩, hpf, hpc, hout⟩ :=
    scaleStep_inr_fields Real.log Real.exp A i st st' hstep
  have hlt : (stepData Real.log Real.exp A i st).tsdf.length =
      (stepData Real.log Real.exp A i st).feat.length := by
    rw [stepData_tsdf_eq, List.length_map]
  have hlo : (stepData Real.log Real.exp A i st).occ.length =
      (stepData Real.log Real.exp A i st).feat.length := by
    rw [stepData_occ_eq, List.length_map]
  have hzip : (stepData Real.log Real.exp A i st).feat.length =
      ((stepData Real.log Real.exp A i st).tsdf.zip
        (stepData Real.log Real.exp A i st).occ).length := by
    rw [List.length_zip, hlt, hlo, Nat.min_self]
  have hmain : st'.preFeat =
      maskFilter (stepData Real.log Real.exp A i st).occupancyS
        (List.zipWith (fun f p => f ++ [p.1, p.2])
          (stepData Real.log Real.exp A i st).feat
          ((stepData Real.log Real.exp A i st).tsdf.zip
            (stepData Real.log Real.exp A i st).occ)) := by
    rw [hpf, stepData_preFeat_eq, maskFilter_zipWith _ _ _ _ hzip,
      maskFilter_zip _ _ _ (hlt.trans hlo.symm)]
  refine ⟨hmain, ?_, ?_⟩
  · intro r hr
    rw [hmain] at hr
    have hr' := maskFilter_subset _ _ _ hr
    obtain ⟨f, hf, p, hp, hrfp⟩ := mem_zipWith_decomp hr'
    rw [hrfp, List.length_append, hC f hf]
    rfl
  · rw [hpc, stepData_preCoords_eq, hmain,
      maskFilter_zip _ _ _ (by rw [hlen, List.length_zipWith, ← hzip,
        Nat.min_self])]

theorem stepData_occupancy_eq (lg ex : K → K) (A : NArgs K) (i : ℕ)
    (st : NState K) :
    (stepData lg ex A i st).occupancy =
      occupancyOf (A.cfg.thresholds.getD i 0) (stepData lg ex A i st).occ
        (stepData lg ex A i st).gridMask := rfl

theorem stepData_gridMask_full (lg ex : K → K) (A : NArgs K) (i : ℕ)
    (st : NState K) (h : (A.cfg.fusionOn && A.cfg.fusionFull) = true) :
    (stepData lg ex A i st).gridMask =
      List.replicate (stepData lg ex A i st).feat.length true := by
  simp only [stepData]
  rw [h]
  simp

theorem stepData_gridMask_counts (lg ex : K → K) (A : NArgs K) (i : ℕ)
    (st : NState K) (h : (A.cfg.fusionOn && A.cfg.fusionFull) = false) :
    (stepData lg ex A i st).gridMask =
      (A.oracle.backProject i (stepData lg ex A i st).upCoords0).2.map
        (fun c => decide (1 < c)) := by
  simp only [stepData]
  rw [h]
  simp

theorem occupancyOf_mask_false (thr : K) (occ : List K) (gm : List Bool)
    (j : ℕ) (h : gm.getD j false = false) :
    (occupancyOf thr occ gm).getD j false = false := by
  induction occ generalizing gm j with
  | nil => simp [occupancyOf]
  | cons o occ ih =>
    cases gm with
    | nil => simp [occupancyOf]
    | cons b gm =>
      cases j with
      | zero =>
        show (decide (thr < o) && b) = false
        rw [show b = false from h]
        exact Bool.and_false _
      | succ j => exact ih gm j h

/-- Constant external modules for a run whose back-projection sees no voxel
from more than one view. -/
def haltOracle : NOracles ℝ :=
  { backProject := fun _ _ => ([[0]], [0]),
    spConv := fun _ f _ => f,
    tsdfHead := fun _ _ => 0,
    occHead := fun _ _ => 0,
    clsHead := fun _ _ => [],
    resHead := fun _ _ => [],
    gru := fun _ c f => (c, [], f, none, none),
    choice := fun _ _ _ => [] }

/-- A concrete two-scale inference fragment over a 1x1x1 coarse grid whose
only voxel fails the visibility test at scale 0. -/
def haltArgs : NArgs ℝ :=
  { cfg := { nLayer := 2, thresholds := [0, 0], nVox := [1, 1, 1],
             voxelSize := 1, trainNumSample := [0, 0], posWeight := 1,
             fusionOn := false, fusionFull := false, training := false },
    inputs := { bs := 1, tsdfVols := fun _ _ _ _ _ => 0,
                occVols := fun _ _ _ _ _ => false,
                origin := fun _ => [0, 0, 0], w2ac := fun _ => [],
                anchorsGt := none, residualGt := [] },
    oracle := haltOracle, outputs0 := { coords := none, tsdf := none } }

/-- Constant external modules for a run whose single voxel is seen by two
views and predicted occupied. -/
def stepOracle : NOracles ℝ :=
  { backProject := fun _ _ => ([[0]], [2]),
    spConv := fun _ f _ => f,
    tsdfHead := fun _ _ => 0,
    occHead := fun _ _ => 1,
    clsHead := fun _ _ => [],
    resHead := fun _ _ => [],
    gru := fun _ c f => (c, [], f, none, none),
    choice := fun _ _ _ => [] }

/-- A concrete single-scale inference fragment over a 1x1x1 grid whose voxel
survives thresholding. -/
def stepArgs : NArgs ℝ :=
  { cfg := { nLayer := 1, thresholds := [0], nVox := [1, 1, 1],
             voxelSize := 1, trainNumSample := [0], posWeight := 1,
             fusionOn := false, fusionFull := false, training := false },
    inputs := { bs := 1, tsdfVols := fun _ _ _ _ _ => 0,
                occVols := fun _ _ _ _ _ => false,
                origin := fun _ => [0, 0, 0], w2ac := fun _ => [],
                anchorsGt := none, residualGt := [] },
    oracle := stepOracle, outputs0 := { coords := none, tsdf := none } }

/-- The single-scale fragment again, with full GRU fusion switched on. -/
def fullArgs : NArgs ℝ :=
  { cfg := { nLayer := 1, thresholds := [0], nVox := [1, 1, 1],
             voxelSize := 1, trainNumSample := [0], posWeight := 1,
             fusionOn := true, fusionFull := true, training := false },
    inputs := { bs := 1, tsdfVols := fun _ _ _ _ _ => 0,
                occVols := fun _ _ _ _ _ => false,
                origin := fun _ => [0, 0, 0], w2ac := fun _ => [],
                anchorsGt := none, residualGt := [] },
    oracle := stepOracle, outputs0 := { coords := none, tsdf := none } }

/-- C6: every voxel with visibility count at most 1 is excluded from the loss
and from the occupancy decision: the visibility mask is count > 1; in
compute_loss the (same) mask selects, via one boolean index set, each of the
six flattened tensors; in forward an occupancy flag whose mask entry is false
is cleared before sparsification; and when full fusion mode is on the mask is
forced all-true instead. -/
theorem c6_visibility_count_mask :
    (∀ (counts : List ℕ) (j : ℕ), j < counts.length → counts.getD j 0 ≤ 1 →
      (counts.map (fun c => decide (1 < c))).getD j false = false) ∧
    (∀ (α : Type) (m : List Bool) (xs : List α),
      maskSelect (some m) xs = (trueIndices m).filterMap (fun j => xs[j]?)) ∧
    (∀ (A : NArgs ℝ) (i : ℕ) (st : NState ℝ),
      (A.cfg.fusionOn && A.cfg.fusionFull) = false →
      (stepData Real.log Real.exp A i st).gridMask =
        (A.oracle.backProject i
          (stepData Real.log Real.exp A i st).upCoords0).2.map
          (fun c => decide (1 < c))) ∧
    (∀ (A : NArgs ℝ) (i : ℕ) (st : NState ℝ) (j : ℕ),
      (stepData Real.log Real.exp A i st).gridMask.getD j false = false →
      (stepData Real.log Real.exp A i st).occupancy.getD j false = false) ∧
    (∀ (A : NArgs ℝ) (i : ℕ) (st : NState ℝ),
      (A.cfg.fusionOn && A.cfg.fusionFull) = true →
      (stepData Real.log Real.exp A i st).gridMask =
        List.replicate (stepData Real.log Real.exp A i st).feat.length
          true) := by
  refine ⟨?_, ?_, ?_, ?_, ?_⟩
  · intro counts j hj hle
    rw [List.getD_eq_getElem _ _ (by simpa using hj), List.getElem_map]
    rw [List.getD_eq_getElem _ _ hj] at hle
    simp only [decide_eq_false_iff_not]
    omega
  · intro α m xs
    exact maskFilter_eq_filterMap m xs
  · intro A i st h
    exact stepData_gridMask_counts Real.log Real.exp A i st h
  · intro A i st j h
    rw [stepData_occupancy_eq]
    exact occupancyOf_mask_false _ _ _ j h
  · intro A i st h
    exact stepData_gridMask_full Real.log Real.exp A i st h

/-- C6 witness: the mask law instantiated at concrete inputs (visibility
counts [0, 2], a two-voxel mask selection, and the full-fusion fragment). -/
theorem c6_visibility_count_mask_witness :
    (([0, 2].map (fun c => decide (1 < c))).getD 0 false = false) ∧
    (maskSelect (some [true, false]) [(5 : ℝ), 7] =
      (trueIndices [true, false]).filterMap (fun j => [(5 : ℝ), 7][j]?)) ∧
    ((stepData Real.log Real.exp fullArgs 0 (initState fullArgs)).gridMask =
      List.replicate
        (stepData Real.log Real.exp fullArgs 0
          (initState fullArgs)).feat.length true) :=
  ⟨c6_visibility_count_mask.1 [0, 2] 0 (by decide) (by decide),
   c6_visibility_count_mask.2.1 ℝ [true, false] [5, 7],
   c6_visibility_count_mask.2.2.2.2 fullArgs 0 (initState fullArgs) rfl⟩

theorem scaleStep_halt (lg ex : K → K) (A : NArgs K) (i : ℕ) (st : NState K)
    (l : K) (hl : (stepData lg ex A i st).lossVal = some l)
    (hhalt : countTrue (stepData lg ex A i st).occupancy = 0 ∨
      batchEmpty A.inputs.bs (stepData lg ex A i st).preCoords = true) :
    scaleStep lg ex A i st =
      some (Sum.inl (st.outputs, st.lossDict ++ [(i, l)])) := by
  simp only [scaleStep, hl]
  rcases hhalt with h | h
  · rw [if_pos h]
  · by_cases h0 : countTrue (stepData lg ex A i st).occupancy = 0
    · rw [if_pos h0]
    · rw [if_neg h0, if_pos h]

theorem reaches_forwardLoop (lg ex : K → K) (A : NArgs K) (k : ℕ)
    (st : NState K) (h : Reaches lg ex A k st) (fuel : ℕ) :
    forwardLoop lg ex A (k + fuel) 0 (initState A) =
      forwardLoop lg ex A fuel k st := by
  induction h generalizing fuel with
  | zero => rw [Nat.zero_add]
  | succ hr hs ih =>
    rename_i k' st1 st2
    have harith : k' + 1 + fuel = k' + (fuel + 1) := by omega
    rw [harith, ih (fuel + 1)]
    simp only [forwardLoop, hs]

theorem reaches_invariant (lg ex : K → K) (A : NArgs K) (k : ℕ)
    (st : NState K) (h : Reaches lg ex A k st) :
    k < A.cfg.nLayer →
      st.outputs = A.outputs0 ∧ st.lossDict.map Prod.fst = List.range k := by
  induction h with
  | zero => exact fun _ => ⟨rfl, rfl⟩
  | succ hr hs ih =>
    rename_i k' st1 st2
    intro hk
    obtain ⟨ho, hl⟩ := ih (by omega)
    obtain ⟨⟨l, _, hld⟩, _, _, hout⟩ :=
      scaleStep_inr_fields lg ex A k' st1 st2 hs
    constructor
    · rw [hout, if_neg (by omega), ho]
    · rw [hld, List.map_append, hl, List.range_succ]
      rfl

theorem forward_halt_early (lg ex : K → K) (A : NArgs K) (k : ℕ)
    (st : NState K) (l : K) (hk : k < A.cfg.nLayer)
    (hreach : Reaches lg ex A k st)
    (hl : (stepData lg ex A k st).lossVal = some l)
    (hhalt : countTrue (stepData lg ex A k st).occupancy = 0 ∨
      batchEmpty A.inputs.bs (stepData lg ex A k st).preCoords = true) :
    forward lg ex A = some (st.outputs, st.lossDict ++ [(k, l)]) := by
  rw [forward, show A.cfg.nLayer = k + (A.cfg.nLayer - k) from by omega,
    reaches_forwardLoop lg ex A k st hreach]
  obtain ⟨f, hf⟩ : ∃ f, A.cfg.nLayer - k = f + 1 :=
    ⟨A.cfg.nLayer - k - 1, by omega⟩
  rw [hf]
  simp only [forwardLoop, scaleStep_halt lg ex A k st l hl hhalt]

/-- C2 (amended): whenever the run of forward reaches scale k and there the
occupancy-threshold-and-visibility test passes zero voxels for the whole
batch, or some batch item keeps zero surviving voxels, forward returns early
with the outputs argument unchanged and with loss entries for exactly the
scales 0..k (halting scale included). -/
theorem c2_early_return_partial (A : NArgs ℝ) (k : ℕ) (st : NState ℝ) (l : ℝ)
    (hk : k < A.cfg.nLayer)
    (hreach : Reaches Real.log Real.exp A k st)
    (hl : (stepData Real.log Real.exp A k st).lossVal = some l)
    (hhalt : countTrue (stepData Real.log Real.exp A k st).occupancy = 0 ∨
      batchEmpty A.inputs.bs
        (stepData Real.log Real.exp A k st).preCoords = true) :
    forward Real.log Real.exp A = some (A.outputs0, st.lossDict ++ [(k, l)]) ∧
    (st.lossDict ++ [(k, l)]).map Prod.fst = List.range (k + 1) := by
  obtain ⟨ho, hld⟩ :=
    reaches_invariant Real.log Real.exp A k st hreach hk
  refine ⟨?_, ?_⟩
  · rw [← ho]
    exact forward_halt_early Real.log Real.exp A k st l hk hreach hl hhalt
  · rw [List.map_append, hld, List.range_succ]
    rfl

theorem haltArgs_lossVal :
    (stepData Real.log Real.exp haltArgs 0 (initState haltArgs)).lossVal =
      some 0 := by
  simp [stepData, haltArgs, haltOracle, initState]

theorem haltArgs_occ_zero :
    countTrue (stepData Real.log Real.exp haltArgs 0
      (initState haltArgs)).occupancy = 0 := by
  simp [stepData, haltArgs, haltOracle, initState, occupancyOf, countTrue,
    Bool.and_false]

/-- C2 witness: the empty-scene fragment halts at scale 0 with the outputs
argument unchanged and a loss dictionary holding only scale 0's entry. -/
theorem c2_early_return_partial_witness :
    forward Real.log Real.exp haltArgs =
      some (haltArgs.outputs0,
        (initState haltArgs).lossDict ++ [(0, (0 : ℝ))]) ∧
    ((initState haltArgs).lossDict ++ [(0, (0 : ℝ))]).map Prod.fst =
      List.range (0 + 1) :=
  c2_early_return_partial haltArgs 0 (initState haltArgs) 0 (by decide)
    Reaches.zero haltArgs_lossVal (Or.inl haltArgs_occ_zero)

/-- C2 counterexample to the claim as stated: in the empty-scene fragment the
returned outputs dictionary is the unchanged input — it holds no (empty or
otherwise) coords entry at all, against the claim's "contains an empty
coords/tsdf output". -/
theorem c2_empty_scene_no_coords_entry :
    forward Real.log Real.exp haltArgs =
      some ({ coords := none, tsdf := none }, [(0, (0 : ℝ))]) ∧
    ({ coords := none, tsdf := none } : NOutputs ℝ).coords ≠
      some ([] : List (List ℤ)) := by
  constructor
  · have h := forward_halt_early Real.log Real.exp haltArgs 0
      (initState haltArgs) 0 (by decide) Reaches.zero haltArgs_lossVal
      (Or.inl haltArgs_occ_zero)
    simpa [initState, haltArgs] using h
  · simp

theorem stepArgs_scaleStep :
    scaleStep Real.log Real.exp stepArgs 0 (initState stepArgs) =
      some (Sum.inr ⟨[[0, 0, 1]], [[0, 0, 0, 0]], [(0, 0)],
        ⟨some [[0, 0, 0, 0]], some [0]⟩⟩) := by
  have hd : (decide ((0:ℝ) < 1)) = true := by simp
  have hd2 : (decide ((1:ℕ) < 2)) = true := by simp
  simp [scaleStep, stepData, stepArgs, stepOracle, initState, occupancyOf,
    countTrue, sparsify, batchEmpty, maskFilter, hd, hd2, getTarget, rCoordsOf,
    matVec, generateGrid, gridAxis, batchGrid, upsample, nScales,
    List.range_succ]

theorem stepArgs_feat :
    (stepData Real.log Real.exp stepArgs 0 (initState stepArgs)).feat =
      [[0]] := by
  simp [stepData, stepArgs, stepOracle, initState, generateGrid, gridAxis,
    batchGrid, rCoordsOf, matVec, nScales, List.range_succ]

theorem stepArgs_upCoords :
    (stepData Real.log Real.exp stepArgs 0 (initState stepArgs)).upCoords =
      [[0, 0, 0, 0]] := by
  simp [stepData, stepArgs, stepOracle, initState, generateGrid, gridAxis,
    batchGrid, rCoordsOf, matVec, nScales, List.range_succ]

/-- C9 witness: the one-voxel fragment hands the next scale exactly the
surviving row [feature, tsdf, occupancy-logit]. -/
theorem c9_next_scale_parent_features_witness :
    (⟨[[(0 : ℝ), 0, 1]], [[(0 : ℤ), 0, 0, 0]], [(0, (0 : ℝ))],
      ⟨some [[(0 : ℤ), 0, 0, 0]], some [(0 : ℝ)]⟩⟩ : NState ℝ).preFeat =
      maskFilter
        (stepData Real.log Real.exp stepArgs 0 (initState stepArgs)).occupancyS
        (List.zipWith (fun f p => f ++ [p.1, p.2])
          (stepData Real.log Real.exp stepArgs 0 (initState stepArgs)).feat
          ((stepData Real.log Real.exp stepArgs 0
              (initState stepArgs)).tsdf.zip
            (stepData Real.log Real.exp stepArgs 0
              (initState stepArgs)).occ)) :=
  (c9_next_scale_parent_features stepArgs 0 (initState stepArgs) _ 1
    stepArgs_scaleStep
    (by rw [stepArgs_feat]; simp)
    (by rw [stepArgs_upCoords, stepArgs_feat]; rfl)).1

theorem mean_nonneg (xs : List ℝ) (h : ∀ x ∈ xs, 0 ≤ x) : 0 ≤ mean xs := by
  rw [mean]
  exact div_nonneg (List.sum_nonneg h) (Nat.cast_nonneg _)

theorem smoothL1_nonneg (d : ℝ) : 0 ≤ smoothL1 d := by
  rw [smoothL1]
  split_ifs with h
  · positivity
  · push_neg at h
    linarith

theorem smoothL1Loss_nonneg (xs ys : List ℝ) : 0 ≤ smoothL1Loss xs ys := by
  apply mean_nonneg
  intro v hv
  simp only [List.mem_map] at hv
  obtain ⟨p, _, hpv⟩ := hv
  exact hpv ▸ smoothL1_nonneg _

theorem bceTerm_nonneg (w x : ℝ) (y : Bool) (hw : 0 ≤ w) :
    0 ≤ bceTerm Real.log Real.exp w x y := by
  have he : 0 < Real.exp (-x) := Real.exp_pos _
  have h1 : 0 < 1 + Real.exp (-x) := by linarith
  have hs0 : 0 < sigmoidK Real.exp x := by rw [sigmoidK]; positivity
  have hs1 : sigmoidK Real.exp x < 1 := by
    rw [sigmoidK, div_lt_one h1]; linarith
  have hlog1 : Real.log (sigmoidK Real.exp x) ≤ 0 :=
    Real.log_nonpos hs0.le hs1.le
  have hlog2 : Real.log (1 - sigmoidK Real.exp x) ≤ 0 :=
    Real.log_nonpos (by linarith) (by linarith)
  cases y <;> simp only [bceTerm, Bool.false_eq_true, if_true, if_false] <;>
    nlinarith

theorem crossEntropy_nonneg (rows : List (List ℝ)) (targets : List ℤ) (c : ℝ)
    (h : crossEntropy Real.log Real.exp rows targets = some c) : 0 ≤ c := by
  rw [crossEntropy] at h
  split_ifs at h with hcond
  · obtain ⟨hb, hlen⟩ := hcond
    simp only [Option.some.injEq] at h
    subst h
    apply mean_nonneg
    intro v hv
    simp only [List.mem_map] at hv
    obtain ⟨p, hp, hpv⟩ := hv
    obtain ⟨ht0, htl⟩ := hb p hp
    have hlt : p.2.toNat < p.1.length := by omega
    have hmem : p.1.getD p.2.toNat 0 ∈ p.1 := by
      rw [List.getD_eq_getElem _ _ hlt]
      exact List.getElem_mem hlt
    have hexp : Real.exp (p.1.getD p.2.toNat 0) ≤ (p.1.map Real.exp).sum := by
      apply List.single_le_sum (fun a ha => ?_) _ (List.mem_map_of_mem _ hmem)
      · simp only [List.mem_map] at ha
        obtain ⟨b, _, hba⟩ := ha
        exact hba ▸ (Real.exp_pos b).le
    have hsum : 0 < (p.1.map Real.exp).sum :=
      lt_of_lt_of_le (Real.exp_pos _) hexp
    rw [← hpv, sub_nonneg]
    exact (Real.le_log_iff_exp_le hsum).mpr hexp

theorem planePart_nonneg (tsdfT3 : List ℝ) (clsLogits3 : List (List ℝ))
    (residuals3 : List (List (List ℝ))) (rCoords : List (List ℝ))
    (anchorsGt : List (List ℤ)) (residualGt : List (List (List ℝ)))
    (q : ℝ × ℝ)
    (h : planePart Real.log Real.exp tsdfT3 clsLogits3 residuals3 rCoords
      anchorsGt residualGt = some q) : 0 ≤ q.1 ∧ 0 ≤ q.2 := by
  rw [planePart] at h
  obtain ⟨pt, hpt, h⟩ := Option.bind_eq_some.mp h
  obtain ⟨c, hce, h⟩ := Option.bind_eq_some.mp h
  obtain ⟨roi, hroi, h⟩ := Option.bind_eq_some.mp h
  have h' : (c, smoothL1Loss ((roi.flatten).map (· * 20))
      ((pt.2.flatten).map (· * 20))) = q := Option.some.inj h
  rw [← h']
  exact ⟨crossEntropy_nonneg _ _ c hce, smoothL1Loss_nonneg _ _⟩

/-- C8: for every well-formed input on which compute_loss returns a value,
with the default weights (1, 1) and a nonnegative pos_weight, the composed
loss — weighted BCE occupancy loss + log-transformed mean-absolute-error TSDF
loss + 7-way cross-entropy classification loss + smooth-L1 residual loss — is
nonnegative. -/
theorem c8_composed_loss_nonneg (tsdf occ tsdfTarget : List ℝ)
    (occTarget : List Bool) (clsLogits : List (List ℝ))
    (residuals : List (List (List ℝ))) (anchorsGt : List (List ℤ))
    (residualGt : List (List (List ℝ))) (rCoords : List (List ℝ))
    (mask : Option (List Bool)) (pw : ℝ) (l : ℝ) (hpw : 0 ≤ pw)
    (h : computeLoss Real.log Real.exp tsdf occ tsdfTarget occTarget
      clsLogits residuals anchorsGt residualGt rCoords (1, 1) mask pw =
      some l) : 0 ≤ l := by
  have hnn : ∀ v ∈ (((maskSelect mask occ).zip
      (maskSelect mask occTarget)).map (fun p => bceTerm Real.log Real.exp
        ((((maskSelect mask occTarget).length : ℝ) -
          (countTrue (maskSelect mask occTarget) : ℝ)) /
          (countTrue (maskSelect mask occTarget) : ℝ) * pw) p.1 p.2)),
      countTrue (maskSelect mask occTarget) ≠ 0 → 0 ≤ v := by
    intro v hv hnp
    simp only [List.mem_map] at hv
    obtain ⟨p, _, hpv⟩ := hv
    have hnp' : 0 < (countTrue (maskSelect mask occTarget) : ℝ) := by
      exact_mod_cast Nat.pos_of_ne_zero hnp
    have hle : countTrue (maskSelect mask occTarget) ≤
        (maskSelect mask occTarget).length := List.countP_le_length _
    have hw' : (0:ℝ) ≤ (((maskSelect mask occTarget).length : ℝ) -
        (countTrue (maskSelect mask occTarget) : ℝ)) /
        (countTrue (maskSelect mask occTarget) : ℝ) * pw := by
      apply mul_nonneg (div_nonneg ?_ hnp'.le) hpw
      have hc : (countTrue (maskSelect mask occTarget) : ℝ) ≤
          ((maskSelect mask occTarget).length : ℝ) := by exact_mod_cast hle
      linarith
    exact hpv ▸ bceTerm_nonneg _ _ _ hw'
  simp only [computeLoss] at h
  split_ifs at h with hnp hval
  · simp only [Option.some.injEq] at h
    rw [← h, zero_mul]
  · obtain ⟨q, hq, h2⟩ := Option.bind_eq_some.mp h
    obtain ⟨hq1, hq2⟩ := planePart_nonneg _ _ _ _ _ _ _ hq
    simp only [Option.some.injEq] at h2
    rw [← h2]
    have hocc : (0:ℝ) ≤ mean (((maskSelect mask occ).zip
        (maskSelect mask occTarget)).map (fun p => bceTerm Real.log Real.exp
          ((((maskSelect mask occTarget).length : ℝ) -
            (countTrue (maskSelect mask occTarget) : ℝ)) /
            (countTrue (maskSelect mask occTarget) : ℝ) * pw) p.1 p.2)) :=
      mean_nonneg _ (fun v hv => hnn v hv hnp)
    have htsdf : (0:ℝ) ≤ mean ((((maskFilter (maskSelect mask occTarget)
        (maskSelect mask tsdf)).map (applyLogTransform Real.log)).zip
        ((maskFilter (maskSelect mask occTarget)
          (maskSelect mask tsdfTarget)).map
          (applyLogTransform Real.log))).map (fun p => |p.1 - p.2|)) := by
      apply mean_nonneg
      intro v hv
      simp only [List.mem_map] at hv
      obtain ⟨p, _, hpv⟩ := hv
      exact hpv ▸ abs_nonneg _
    nlinarith
  · simp only [Option.some.injEq] at h
    rw [← h]
    have hocc : (0:ℝ) ≤ mean (((maskSelect mask occ).zip
        (maskSelect mask occTarget)).map (fun p => bceTerm Real.log Real.exp
          ((((maskSelect mask occTarget).length : ℝ) -
            (countTrue (maskSelect mask occTarget) : ℝ)) /
            (countTrue (maskSelect mask occTarget) : ℝ) * pw) p.1 p.2)) :=
      mean_nonneg _ (fun v hv => hnn v hv hnp)
    have htsdf : (0:ℝ) ≤ mean ((((maskFilter (maskSelect mask occTarget)
        (maskSelect mask tsdf)).map (applyLogTransform Real.log)).zip
        ((maskFilter (maskSelect mask occTarget)
          (maskSelect mask tsdfTarget)).map
          (applyLogTransform Real.log))).map (fun p => |p.1 - p.2|)) := by
      apply mean_nonneg
      intro v hv
      simp only [List.mem_map] at hv
      obtain ⟨p, _, hpv⟩ := hv
      exact hpv ▸ abs_nonneg _
    nlinarith

theorem c8_eval :
    computeLoss Real.log Real.exp [0] [0] [-1] [true] [[0]] [[[0]]] [[0]]
      [[[0]]] [[0]] (1, 1) (some [true]) 1 = some (Real.log 2) := by
  have hneg : ((-1 : ℝ) < 0) := by norm_num
  have hlog2 : (0 : ℝ) < Real.log 2 := Real.log_pos (by norm_num)
  have hnotle : ¬ ((0 : ℝ) ≤ -1 * Real.log 2) := by nlinarith
  simp [computeLoss, maskSelect, maskFilter, countTrue, mean, bceTerm,
    sigmoidK, applyLogTransform, signK, hneg, hnotle, lt_irrefl,
    show (1 : ℝ) + 1 = 2 from by norm_num, not_le.mpr hlog2,
    abs_of_nonneg hlog2.le]

/-- C8 witness: the one-voxel loss evaluates to log 2, and the law gives its
nonnegativity. -/
theorem c8_composed_loss_nonneg_witness : 0 ≤ Real.log 2 :=
  c8_composed_loss_nonneg [0] [0] [-1] [true] [[0]] [[[0]]] [[0]] [[[0]]]
    [[0]] (some [true]) 1 (Real.log 2) zero_le_one c8_eval

/-- C10 (code bug evidence): at a two-voxel input whose second voxel is
dropped by the visibility mask, the plane-lookup loop selects batch-member
row positions from the full, unfiltered r_coords (positions 0 and 1) and uses
them to index the filtered, length-1 TSDF-target tensor, so the lookup
indexes out of bounds and compute_loss raises (returns none) instead of
staying in bounds as claimed. -/
theorem c10_plane_lookup_index_out_of_range :
    computeLoss Real.log Real.exp [0, 0] [0, 0] [0, 0] [true, true]
      [[0], [0]] [[[0]], [[0]]] [[0]] [[[0, 0, 0]]]
      [[0, 0, 0, 0], [0, 0, 0, 0]] (1, 1) (some [true, false]) 1 = none := by
  simp [computeLoss, maskSelect, maskFilter, countTrue, mean, bceTerm,
    sigmoidK, applyLogTransform, signK, planePart, planeTargets, planeStep,
    tableLookup, intIndex, scatterList, crossEntropy, List.range_succ,
    lt_self_iff_false, le_refl, List.filter_cons, List.filter_nil,
    List.zip_cons_cons, List.zip_nil_right, List.map_cons, List.map_nil,
    List.foldlM, List.mapM, List.mapM.loop, Real.log_one]

/-- C1 (code bug evidence): at a single fully visible occupied voxel whose
TSDF-target slot holds the surface-point id 3 and whose anchor table has four
entries, the indexing the claim describes (the integer TSDF-target value
itself into anchors_gt[b]) is well-defined and yields entry 3 — but
compute_loss applies apply_log_transform to the target first, so the index it
actually uses is log 4, which is not an integer (it lies strictly between 1
and 2), and the lookup raises (returns none). -/
theorem c1_log_transformed_lookup_raises :
    tableLookup ([0, 1, 2, 3] : List ℤ) ((3 : ℝ)) = some 3 ∧
    applyLogTransform Real.log (3 : ℝ) = Real.log 4 ∧
    computeLoss Real.log Real.exp [0] [0] [3] [true] [[0]] [[[0]]]
      [[0, 1, 2, 3]] [[[0, 0, 0], [0, 0, 0], [0, 0, 0], [0, 0, 0]]]
      [[0, 0, 0, 0]] (1, 1) (some [true]) 1 = none := by
  have h4 : (0:ℝ) < 4 := by norm_num
  have hl1 : (1:ℝ) < Real.log 4 := by
    rw [Real.lt_log_iff_exp_lt h4]
    have h := Real.exp_one_lt_d9
    nlinarith
  have hl2 : Real.log 4 < 2 := by
    rw [Real.log_lt_iff_lt_exp h4]
    have h := Real.exp_one_gt_d9
    have he2 : Real.exp 2 = Real.exp 1 * Real.exp 1 := by
      rw [← Real.exp_add]; norm_num
    nlinarith
  have hne0 : ¬ ((0:ℝ) = Real.log 4) := by nlinarith
  have hne1 : ¬ ((1:ℝ) = Real.log 4) := by nlinarith
  have hne2 : ¬ ((2:ℝ) = Real.log 4) := by nlinarith
  have hne3 : ¬ ((3:ℝ) = Real.log 4) := by nlinarith
  have h0le : (0:ℝ) ≤ Real.log 4 := by nlinarith
  have h3 : (0:ℝ) < 3 := by norm_num
  have h3n : ¬ ((3:ℝ) < 0) := by norm_num
  have habs : |(3:ℝ)| = 3 := abs_of_nonneg (by norm_num)
  have h31 : (3:ℝ) + 1 = 4 := by norm_num
  refine ⟨?_, ?_, ?_⟩
  · simp [tableLookup, intIndex, List.range_succ, List.find?,
      show ¬ ((0:ℝ) = 3) from by norm_num,
      show ¬ ((1:ℝ) = 3) from by norm_num,
      show ¬ ((2:ℝ) = 3) from by norm_num]
  · simp [applyLogTransform, signK, h3, h3n, habs, h31]
  · simp [computeLoss, maskSelect, maskFilter, countTrue, mean, bceTerm,
      sigmoidK, applyLogTransform, signK, planePart, planeTargets, planeStep,
      tableLookup, intIndex, scatterList, crossEntropy, List.range_succ,
      lt_self_iff_false, le_refl, List.filter_cons, List.filter_nil,
      List.zip_cons_cons, List.zip_nil_right, List.map_cons, List.map_nil,
      List.foldlM, List.mapM, List.mapM.loop, List.find?,
      h3, h3n, habs, h31, h0le, hne0, hne1, hne2, hne3]
